import Mathlib

/-!
Verification development for the ggRMCP gateway (Go).

Each Go function relevant to the claims is shallow-embedded as an executable
Lean definition operating on explicit data:

* Go `map[string]T` values are modelled as association lists
  `List (String × T)` with last-write-wins insertion (`assocInsert`), matching
  Go assignment `m[k] = v`; lookup is `assocFind`.
* Go strings are Lean `String`; `strings.ToLower` is modelled by ASCII
  lowering (`goToLower`), which agrees with Go on the ASCII inputs that
  protobuf identifiers and configured header names consist of.
* Fallible Go code returns `Except`.
-/

/-- The per-character action of Go `strings.ToLower` on ASCII input: maps a
character in `A`-`Z` to the corresponding lower-case letter and leaves every
other character unchanged. -/
def lowerChar (c : Char) : Char :=
  if 'A' ≤ c && c ≤ 'Z' then Char.ofNat (c.toNat + 32) else c

/-- Go `strings.ToLower` restricted to ASCII.  Agrees with Go's
Unicode-aware `strings.ToLower` on all ASCII strings. -/
def goToLower (s : String) : String :=
  ⟨s.data.map lowerChar⟩

/-- Lookup in an association list modelling a Go map read `m[k]`. -/
def assocFind {α : Type} (m : List (String × α)) (k : String) : Option α :=
  match m with
  | [] => none
  | (k', v) :: rest => if k = k' then some v else assocFind rest k

/-- Insertion modelling a Go map write `m[k] = v`: replaces an existing
binding for `k`, otherwise appends. -/
def assocInsert {α : Type} (m : List (String × α)) (k : String) (v : α) :
    List (String × α) :=
  match m with
  | [] => [(k, v)]
  | (k', v') :: rest =>
    if k = k' then (k, v) :: rest else (k', v') :: assocInsert rest k v

/-! ## Header forwarding (pkg/headers/filter.go, pkg/config/config.go) -/

/-- `config.HeaderForwardingConfig` (pkg/config/config.go). -/
structure HeaderForwardingConfig where
  enabled : Bool
  allowedHeaders : List String
  blockedHeaders : List String
  forwardAll : Bool
  caseSensitive : Bool
deriving Repr, DecidableEq

/-- The blocked-headers loop of `Filter.ShouldForward` (pkg/headers/filter.go
lines 419-428): the header name and each blocked entry are lower-cased unless
`caseSensitive`, and the loop reports whether any entry matches. -/
def blockedMatch (f : HeaderForwardingConfig) (headerName : String) : Bool :=
  f.blockedHeaders.any (fun blocked =>
    (if !f.caseSensitive then goToLower headerName else headerName)
      = (if !f.caseSensitive then goToLower blocked else blocked))

/-- The allowed-headers loop of `Filter.ShouldForward` (pkg/headers/filter.go
lines 435-444): same folding as the blocked loop, over the allowed list. -/
def allowedMatch (f : HeaderForwardingConfig) (headerName : String) : Bool :=
  f.allowedHeaders.any (fun allowed =>
    (if !f.caseSensitive then goToLower headerName else headerName)
      = (if !f.caseSensitive then goToLower allowed else allowed))

/-- `Filter.ShouldForward` (pkg/headers/filter.go).  Returns whether a single
header name passes the forwarding policy: disabled blocks everything; blocked
names (case-folded unless `caseSensitive`) take precedence; `forwardAll`
keeps the rest; otherwise the name must match an allowed entry. -/
def shouldForward (f : HeaderForwardingConfig) (headerName : String) : Bool :=
  if !f.enabled then
    false
  else if blockedMatch f headerName then
    false
  else if f.forwardAll then
    true
  else
    allowedMatch f headerName

/-- `Filter.FilterHeaders` (pkg/headers/filter.go).  Builds the output header
map: empty when disabled, otherwise exactly the input entries whose name
passes `shouldForward`, each kept under its original name with its original
value. -/
def filterHeaders (f : HeaderForwardingConfig) (headers : List (String × String)) :
    List (String × String) :=
  if !f.enabled then
    []
  else
    headers.filter (fun p => shouldForward f p.1)

theorem shouldForward_eq (f : HeaderForwardingConfig) (n : String) :
    shouldForward f n =
      (f.enabled && !blockedMatch f n && (f.forwardAll || allowedMatch f n)) := by
  unfold shouldForward
  cases hE : f.enabled <;> cases hB : blockedMatch f n <;>
    cases hF : f.forwardAll <;> simp [hE, hB, hF]

/-- C5: with the policy enabled, (a) a header whose folded name matches the
blocked list never appears in the output, whatever its value and even if it
also matches the allowed list; (b) with `forwardAll` every non-blocked input
entry is kept; (c) without `forwardAll` every kept entry matches the allowed
list; and (d) every kept entry is an entry of the input — original spelling,
original value. -/
theorem filterHeaders_policy (f : HeaderForwardingConfig)
    (H : List (String × String)) (hE : f.enabled = true) :
    ((∀ n v, blockedMatch f n = true → (n, v) ∉ filterHeaders f H) ∧
     (f.forwardAll = true → ∀ n v, (n, v) ∈ H → blockedMatch f n = false →
        (n, v) ∈ filterHeaders f H) ∧
     (f.forwardAll = false → ∀ n v, (n, v) ∈ filterHeaders f H →
        allowedMatch f n = true) ∧
     (∀ p, p ∈ filterHeaders f H → p ∈ H)) := by
  refine ⟨?_, ?_, ?_, ?_⟩
  · intro n v hb hmem
    rw [filterHeaders, hE] at hmem
    simp only [Bool.not_true, Bool.false_eq_true, if_false, List.mem_filter] at hmem
    rw [shouldForward_eq, hE, hb] at hmem
    simp at hmem
  · intro hFA n v hmem hnb
    rw [filterHeaders, hE]
    simp only [Bool.not_true, Bool.false_eq_true, if_false, List.mem_filter]
    refine ⟨hmem, ?_⟩
    rw [shouldForward_eq, hE, hnb, hFA]
    simp
  · intro hFA n v hmem
    rw [filterHeaders, hE] at hmem
    simp only [Bool.not_true, Bool.false_eq_true, if_false, List.mem_filter] at hmem
    rw [shouldForward_eq, hE, hFA] at hmem
    rcases hmem with ⟨_, hfwd⟩
    cases hb : blockedMatch f n <;> cases ha : allowedMatch f n <;>
      simp [hb, ha] at hfwd ⊢
  · intro p hmem
    rw [filterHeaders, hE] at hmem
    simp only [Bool.not_true, Bool.false_eq_true, if_false, List.mem_filter] at hmem
    exact hmem.1

/-- A sample policy (the spec's scenario 6 shape) used to instantiate
hypothesis-bearing header theorems. -/
def samplePolicy : HeaderForwardingConfig :=
  { enabled := true
    allowedHeaders := ["authorization", "x-trace-id"]
    blockedHeaders := ["cookie"]
    forwardAll := false
    caseSensitive := false }

/-- A sample caller header map. -/
def sampleHeaders : List (String × String) :=
  [("Authorization", "Bearer x"), ("X-Trace-Id", "t"),
   ("Cookie", "c=1"), ("X-Other", "o")]

/-- Witness for C5 at a concrete policy and header map: the blocked `Cookie`
header is absent from the output of the enabled sample policy. -/
theorem filterHeaders_policy_witness :
    ("Cookie", "c=1") ∉ filterHeaders samplePolicy sampleHeaders :=
  (filterHeaders_policy samplePolicy sampleHeaders (by decide)).1
    "Cookie" "c=1" (by decide)

/-- C6: filtering is idempotent and the filtered map is a key-wise subset of
the input (every output entry is an input entry, same key and value), for
every policy and every header map. -/
theorem filterHeaders_idempotent_subset (f : HeaderForwardingConfig)
    (H : List (String × String)) :
    filterHeaders f (filterHeaders f H) = filterHeaders f H ∧
      ∀ p, p ∈ filterHeaders f H → p ∈ H := by
  constructor
  · unfold filterHeaders
    cases hE : f.enabled
    · simp
    · simp only [Bool.not_true, Bool.false_eq_true, if_false]
      induction H with
      | nil => simp
      | cons p rest ih =>
        by_cases hp : shouldForward f p.1 = true
        · simp [hp, ih]
        · simp [List.filter_cons, hp, ih]
  · intro p hp
    unfold filterHeaders at hp
    cases hE : f.enabled
    · rw [hE] at hp; simp at hp
    · rw [hE] at hp
      simp only [Bool.not_true, Bool.false_eq_true, if_false,
        List.mem_filter] at hp
      exact hp.1

/-- Witness for C6 at the sample policy and headers: the idempotence equation
instantiated, and one concrete key-wise containment. -/
theorem filterHeaders_idempotent_subset_witness :
    filterHeaders samplePolicy (filterHeaders samplePolicy sampleHeaders)
        = filterHeaders samplePolicy sampleHeaders ∧
      ("Authorization", "Bearer x") ∈ sampleHeaders :=
  ⟨(filterHeaders_idempotent_subset samplePolicy sampleHeaders).1,
   (filterHeaders_idempotent_subset samplePolicy sampleHeaders).2
     ("Authorization", "Bearer x") (by decide)⟩

/-- C10: with the policy disabled, `FilterHeaders` returns the empty map for
every input, whatever the allow list, block list, `forwardAll` and
case-sensitivity settings. -/
theorem filterHeaders_disabled (f : HeaderForwardingConfig)
    (H : List (String × String)) (h : f.enabled = false) :
    filterHeaders f H = [] := by
  unfold filterHeaders
  rw [h]
  simp

/-- Witness for C10: a disabled policy whose other settings would otherwise
forward everything still yields the empty output. -/
theorem filterHeaders_disabled_witness :
    filterHeaders
        { enabled := false, allowedHeaders := ["authorization"],
          blockedHeaders := [], forwardAll := true, caseSensitive := false }
        sampleHeaders = [] :=
  filterHeaders_disabled _ sampleHeaders (by decide)

/-! ## Tool names (pkg/types/service.go) -/

/-- The per-character action of Go
`strings.ReplaceAll(s, ".", "_")`: with a one-character pattern the
replacement substitutes each occurrence pointwise. -/
def dotToUnderscore (c : Char) : Char :=
  if c = '.' then '_' else c

/-- Go `strings.ReplaceAll(s, ".", "_")` as used by `GenerateToolName`. -/
def goReplaceDot (s : String) : String :=
  ⟨s.data.map dotToUnderscore⟩

/-- `types.MethodInfo` (pkg/types/service.go), restricted to the fields the
claims touch.  The two descriptor fields hold the fully-qualified message
names resolved against the descriptor environment of the schema section. -/
structure MethodInfo where
  name : String
  fullName : String := ""
  toolName : String := ""
  serviceName : String
  description : String := ""
  inputType : String := ""
  outputType : String := ""
  inputDescriptor : String := ""
  outputDescriptor : String := ""
  isClientStreaming : Bool := false
  isServerStreaming : Bool := false
deriving Repr, DecidableEq

/-- `MethodInfo.GenerateToolName` (pkg/types/service.go lines 53-61):
lower-case the service name with dots replaced by underscores, then append
an underscore and the lower-cased method name. -/
def MethodInfo.generateToolName (m : MethodInfo) : String :=
  goToLower (goReplaceDot m.serviceName) ++ "_" ++ goToLower m.name

/-- The characters protobuf allows in a (dotted) identifier:
`[A-Za-z0-9_.]`.  Service full names and method names coming out of a
descriptor are built from these. -/
def protoIdentChars : List Char :=
  ("ABCDEFGHIJKLMNOPQRSTUVWXYZabcdefghijklmnopqrstuvwxyz0123456789_.").data

/-- Membership in the MCP tool-name character class `[a-z0-9_.]`. -/
def isToolNameChar (c : Char) : Bool :=
  ('a' ≤ c && c ≤ 'z') || ('0' ≤ c && c ≤ '9') || c = '_' || c = '.'

theorem lowerChar_dot_class (c : Char) (h : c ∈ protoIdentChars) :
    isToolNameChar (lowerChar (dotToUnderscore c)) = true := by
  have hall : ∀ d ∈ protoIdentChars,
      isToolNameChar (lowerChar (dotToUnderscore d)) = true := by decide
  exact hall c h

theorem lowerChar_class (c : Char) (h : c ∈ protoIdentChars) :
    isToolNameChar (lowerChar c) = true := by
  have hall : ∀ d ∈ protoIdentChars, isToolNameChar (lowerChar d) = true := by
    decide
  exact hall c h

/-- C1: for every `MethodInfo` whose service and method names are made of
protobuf identifier characters (as every name produced by a descriptor is),
the generated tool name is the lower-cased dot-to-underscore service part,
an underscore, and the lower-cased method name, and the result is non-empty
and made only of characters in the MCP tool-name class `[a-z0-9_.]`
(hence matches `[a-z0-9_.]+`). -/
theorem generateToolName_spec (m : MethodInfo)
    (hS : ∀ c ∈ m.serviceName.data, c ∈ protoIdentChars)
    (hN : ∀ c ∈ m.name.data, c ∈ protoIdentChars) :
    m.generateToolName
        = goToLower (goReplaceDot m.serviceName) ++ "_" ++ goToLower m.name ∧
      m.generateToolName.data ≠ [] ∧
      ∀ c ∈ m.generateToolName.data, isToolNameChar c = true := by
  refine ⟨rfl, ?_, ?_⟩
  · unfold MethodInfo.generateToolName
    simp [String.data_append]
  · intro c hc
    unfold MethodInfo.generateToolName at hc
    rw [String.data_append, String.data_append] at hc
    rcases List.mem_append.mp hc with hc | hc
    · rcases List.mem_append.mp hc with hc | hc
      · unfold goToLower goReplaceDot at hc
        simp only [List.map_map] at hc
        rcases List.mem_map.mp hc with ⟨d, hd, rfl⟩
        exact lowerChar_dot_class d (hS d hd)
      · have : c = '_' := by
          simpa using hc
        subst this
        decide
    · unfold goToLower at hc
      rcases List.mem_map.mp hc with ⟨d, hd, rfl⟩
      exact lowerChar_class d (hN d hd)

/-- The spec's running example method: `hello.HelloService.SayHello`. -/
def sayHelloInfo : MethodInfo :=
  { name := "SayHello", serviceName := "hello.HelloService" }

/-- Witness for C1 at the spec's running example
`hello.HelloService.SayHello`. -/
theorem generateToolName_spec_witness :
    sayHelloInfo.generateToolName = "hello_helloservice_sayhello" ∧
      sayHelloInfo.generateToolName.data ≠ [] :=
  ⟨by decide,
   (generateToolName_spec sayHelloInfo (by decide) (by decide)).2.1⟩

/-! ## Discovery tool map (grpc/discovery.go) -/

/-- The tool-map construction of `serviceDiscoverer.DiscoverServices`
(grpc/discovery.go lines 121-126): a fresh map receives every discovered
method keyed by its `ToolName`, one Go map assignment per method, in order.
A later method with the same tool name overwrites the earlier one. -/
def buildToolsMap (methods : List MethodInfo) : List (String × MethodInfo) :=
  methods.foldl (fun tools method => assocInsert tools method.toolName method) []

/-- First of two distinct methods sharing the tool name `dup_svc_a`. -/
def dupMethodA : MethodInfo :=
  { name := "A", fullName := "dup.Svc.A", toolName := "dup_svc_a",
    serviceName := "dup.Svc", description := "first" }

/-- Second of two distinct methods sharing the tool name `dup_svc_a`. -/
def dupMethodB : MethodInfo :=
  { name := "B", fullName := "dup.Svc.B", toolName := "dup_svc_a",
    serviceName := "dup.Svc", description := "second" }

/-- C3 (counter-evidence, code bug): feeding `DiscoverServices` two methods
with the same tool name makes the published map carry the second method — the
first is silently overwritten and no `DuplicateTool` error exists anywhere in
the flow, contradicting the claim that the second is rejected and the first
kept. -/
theorem discoverServices_duplicate_overwrites :
    assocFind (buildToolsMap [dupMethodA, dupMethodB]) "dup_svc_a"
        = some dupMethodB ∧
      dupMethodB ≠ dupMethodA := by
  constructor
  · rfl
  · decide

/-- A server-streaming method as discovery would emit it. -/
def streamMethod : MethodInfo :=
  { name := "Watch", fullName := "s.Svc.Watch", toolName := "s_svc_watch",
    serviceName := "s.Svc", isServerStreaming := true }

/-- C2 (counterexample): the published `toolName → MethodInfo` map stored by
`DiscoverServices` does contain streaming entries — nothing filters them when
the map is built, so a server-streaming method lands in the map with its
streaming flag set. -/
theorem toolsMap_contains_streaming :
    assocFind (buildToolsMap [streamMethod]) "s_svc_watch" = some streamMethod ∧
      streamMethod.isServerStreaming = true := by
  constructor
  · rfl
  · rfl

/-! ## Schema projection (pkg/tools/builder.go)

The protoreflect descriptor graph is embedded as a registry mapping
fully-qualified message names to message descriptors.  A message-kind field
holds the referenced message's fully-qualified name; following the reference
is a registry lookup, mirroring the descriptor object reference in Go.  The
Go recursion is replayed with an explicit fuel parameter: fuel is consumed
exactly when a message body is entered, and the totality theorems below show
the fuel branch is unreachable when the fuel exceeds the number of
not-yet-visited registered messages — that is, the Go recursion terminates.
The Go `visited` map receives the message name on entry and drops it on
return (`defer delete`); passing the extended list only into the recursive
calls models exactly that path-scoping. -/

/-- JSON values, for the generated schemas.  Objects are ordered field
lists; Go's `map[string]interface` is unordered, so object key order in
this model is a presentation artifact. -/
inductive Json where
  | null : Json
  | bool (b : Bool) : Json
  | num (n : Int) : Json
  | str (s : String) : Json
  | arr (xs : List Json) : Json
  | obj (fields : List (String × Json)) : Json
deriving Repr

/-- `protoreflect.Kind` together with the payload the schema generator reads
from it: enum kinds carry their value descriptors (name and comment), and
message kinds carry the referenced message's fully-qualified name. -/
inductive FieldKind where
  | boolK | int32K | sint32K | sfixed32K | int64K | sint64K | sfixed64K
  | uint32K | fixed32K | uint64K | fixed64K | floatK | doubleK
  | stringK | bytesK | groupK
  | enumK (values : List (String × String)) (comments : String)
  | messageK (fullName : String)
deriving Repr

/-- A field descriptor, carrying exactly what
`extractFieldSchemaInternal` reads: name, kind, list/map structure, the map
value field's kind, presence flags and source comments. -/
structure FieldDesc where
  name : String
  kind : FieldKind
  isList : Bool := false
  isMap : Bool := false
  mapValueKind : FieldKind := FieldKind.stringK
  hasOptionalKeyword : Bool := false
  hasPresence : Bool := false
  comments : String := ""
deriving Repr

/-- A oneof descriptor: its name, its member field descriptors (also listed
in the containing message's field list, as protoreflect does), and source
comments. -/
structure OneofDesc where
  name : String
  fields : List FieldDesc
  comments : String := ""
deriving Repr

/-- A message descriptor: field list (including oneof members), oneofs, and
source comments. -/
structure MsgDesc where
  fields : List FieldDesc
  oneofs : List OneofDesc := []
  comments : String := ""
deriving Repr

/-- A descriptor registry: fully-qualified message name to descriptor. -/
abbrev DescEnv := List (String × MsgDesc)

/-- Result of a schema extraction step.  `.error ()` marks fuel exhaustion —
a model artifact shown unreachable below.  `.ok none` is a Go error return
(in Go: an unsupported field kind; in the model additionally a dangling
message reference, which a real descriptor graph cannot produce); the caller
skips the field.  `.ok (some j)` is a produced schema. -/
abbrev SchemaRes := Except Unit (Option Json)

/-- The schema for `$ref` cycle breaks:
 `\x7b"$ref": "#/definitions/" + fullName\x7d`. -/
def refSchema (fullName : String) : Json :=
  Json.obj [("$ref", Json.str ("#/definitions/" ++ fullName))]

/-- The oneof option built for one member field
(builder.go lines 241-247). -/
def oneofOption (fieldName : String) (fieldSchema : Json) : Json :=
  Json.obj [("type", Json.str "object"),
            ("properties", Json.obj [(fieldName, fieldSchema)]),
            ("required", Json.arr [Json.str fieldName])]

/-- `MCPToolBuilder.extractFieldTypeSchemaInternal` (builder.go lines
304-434): scalar kinds map per the fixed table; enums list their value
names with optional descriptions; well-known message types get fixed
substitutions; any other message type recurses into
`extractMessageSchemaInternal` — here through the continuation
`recurseMsg`, which the top-level function ties back to itself one fuel
step down; the group kind is unsupported and returns a Go error. -/
def extractFieldTypeSchemaInternal (recurseMsg : List String → String → SchemaRes)
    (visited : List String) (kind : FieldKind) : SchemaRes :=
  match kind with
  | .boolK => .ok (some (Json.obj [("type", Json.str "boolean")]))
  | .int32K | .sint32K | .sfixed32K =>
    .ok (some (Json.obj [("type", Json.str "integer"),
                         ("format", Json.str "int32")]))
  | .int64K | .sint64K | .sfixed64K =>
    .ok (some (Json.obj [("type", Json.str "integer"),
                         ("format", Json.str "int64")]))
  | .uint32K | .fixed32K =>
    .ok (some (Json.obj [("type", Json.str "integer"),
                         ("format", Json.str "uint32"),
                         ("minimum", Json.num 0)]))
  | .uint64K | .fixed64K =>
    .ok (some (Json.obj [("type", Json.str "integer"),
                         ("format", Json.str "uint64"),
                         ("minimum", Json.num 0)]))
  | .floatK =>
    .ok (some (Json.obj [("type", Json.str "number"),
                         ("format", Json.str "float")]))
  | .doubleK =>
    .ok (some (Json.obj [("type", Json.str "number"),
                         ("format", Json.str "double")]))
  | .stringK => .ok (some (Json.obj [("type", Json.str "string")]))
  | .bytesK =>
    .ok (some (Json.obj [("type", Json.str "string"),
                         ("format", Json.str "byte")]))
  | .groupK => .ok none
  | .enumK values comments =>
    let enumValues := values.map (fun v => Json.str v.1)
    let enumDescriptions := (values.filter (fun v => v.2 ≠ "")).map
      (fun v => (v.1, Json.str v.2))
    .ok (some (Json.obj
      ([("type", Json.str "string"), ("enum", Json.arr enumValues)]
        ++ (if comments ≠ "" then [("description", Json.str comments)] else [])
        ++ (if enumDescriptions.isEmpty then []
            else [("enumDescriptions", Json.obj enumDescriptions)]))))
  | .messageK fullName =>
    match fullName with
    | "google.protobuf.Any" =>
      .ok (some (Json.obj [("type", Json.str "object"),
        ("description",
         Json.str "Any contains an arbitrary serialized protocol buffer message")]))
    | "google.protobuf.Timestamp" =>
      .ok (some (Json.obj [("type", Json.str "string"),
        ("format", Json.str "date-time"),
        ("description", Json.str "RFC 3339 formatted timestamp")]))
    | "google.protobuf.Duration" =>
      .ok (some (Json.obj [("type", Json.str "string"),
        ("format", Json.str "duration"),
        ("description",
         Json.str "Duration in seconds with up to 9 fractional digits")]))
    | "google.protobuf.Struct" =>
      .ok (some (Json.obj [("type", Json.str "object"),
        ("description", Json.str "Arbitrary JSON-like structure")]))
    | "google.protobuf.Value" =>
      .ok (some (Json.obj [("description", Json.str "Any JSON value")]))
    | "google.protobuf.ListValue" =>
      .ok (some (Json.obj [("type", Json.str "array"),
        ("description", Json.str "Array of JSON values")]))
    | "google.protobuf.StringValue" =>
      .ok (some (Json.obj [("type", Json.str "string")]))
    | "google.protobuf.BytesValue" =>
      .ok (some (Json.obj [("type", Json.str "string")]))
    | "google.protobuf.BoolValue" =>
      .ok (some (Json.obj [("type", Json.str "boolean")]))
    | "google.protobuf.Int32Value" =>
      .ok (some (Json.obj [("type", Json.str "integer")]))
    | "google.protobuf.UInt32Value" =>
      .ok (some (Json.obj [("type", Json.str "integer")]))
    | "google.protobuf.Int64Value" =>
      .ok (some (Json.obj [("type", Json.str "integer")]))
    | "google.protobuf.UInt64Value" =>
      .ok (some (Json.obj [("type", Json.str "integer")]))
    | "google.protobuf.FloatValue" =>
      .ok (some (Json.obj [("type", Json.str "number")]))
    | "google.protobuf.DoubleValue" =>
      .ok (some (Json.obj [("type", Json.str "number")]))
    | _ => recurseMsg visited fullName

/-- `MCPToolBuilder.extractFieldSchemaInternal` (builder.go lines 263-301):
repeated fields become arrays of the element schema, map fields become
objects with `patternProperties` over the value schema, and plain fields
return the type schema directly (note the Go code builds a map holding the
field's comment first but returns the bare type schema in the plain case,
dropping that comment — mirrored here). -/
def extractFieldSchemaInternal (recurseMsg : List String → String → SchemaRes)
    (visited : List String) (field : FieldDesc) : SchemaRes :=
  let descPart : List (String × Json) :=
    if field.comments ≠ "" then [("description", Json.str field.comments)] else []
  if field.isList then
    match extractFieldTypeSchemaInternal recurseMsg visited field.kind with
    | .error () => .error ()
    | .ok none => .ok none
    | .ok (some itemSchema) =>
      .ok (some (Json.obj (descPart
        ++ [("type", Json.str "array"), ("items", itemSchema)])))
  else if field.isMap then
    match extractFieldTypeSchemaInternal recurseMsg visited field.mapValueKind with
    | .error () => .error ()
    | .ok none => .ok none
    | .ok (some valueSchema) =>
      .ok (some (Json.obj (descPart
        ++ [("type", Json.str "object"),
            ("patternProperties", Json.obj [(".*", valueSchema)]),
            ("additionalProperties", Json.bool false)])))
  else
    extractFieldTypeSchemaInternal recurseMsg visited field.kind

/-- The field loop of `extractMessageSchemaInternal` (builder.go lines
190-211): each field's schema is added to `properties`; a field whose
extraction errors is skipped; a field with neither the `optional` keyword
nor presence tracking is appended to `required`. -/
def processFields (recurseMsg : List String → String → SchemaRes)
    (visited : List String) (fields : List FieldDesc)
    (props : List (String × Json)) (required : List String) :
    Except Unit (List (String × Json) × List String) :=
  match fields with
  | [] => .ok (props, required)
  | field :: rest =>
    match extractFieldSchemaInternal recurseMsg visited field with
    | .error () => .error ()
    | .ok none => processFields recurseMsg visited rest props required
    | .ok (some fieldSchema) =>
      processFields recurseMsg visited rest (assocInsert props field.name fieldSchema)
        (if field.hasOptionalKeyword || field.hasPresence then required
         else required ++ [field.name])

/-- The member loop inside the oneof loop (builder.go lines 229-250): each
member whose schema extraction succeeds contributes one `oneOf` option
requiring exactly that member; failing members are skipped. -/
def processOneofFields (recurseMsg : List String → String → SchemaRes)
    (visited : List String) (ofields : List FieldDesc) (options : List Json) :
    Except Unit (List Json) :=
  match ofields with
  | [] => .ok options
  | field :: rest =>
    match extractFieldSchemaInternal recurseMsg visited field with
    | .error () => .error ()
    | .ok none => processOneofFields recurseMsg visited rest options
    | .ok (some fieldSchema) =>
      processOneofFields recurseMsg visited rest
        (options ++ [oneofOption field.name fieldSchema])

/-- The oneof loop of `extractMessageSchemaInternal` (builder.go lines
214-253): each oneof becomes one property named after it, holding
`\x7btype: object, oneOf: [...]\x7d` plus its comment. -/
def processOneofs (recurseMsg : List String → String → SchemaRes)
    (visited : List String) (oneofs : List OneofDesc)
    (props : List (String × Json)) : Except Unit (List (String × Json)) :=
  match oneofs with
  | [] => .ok props
  | oneof :: rest =>
    match processOneofFields recurseMsg visited oneof.fields [] with
    | .error () => .error ()
    | .ok options =>
      processOneofs recurseMsg visited rest
        (assocInsert props oneof.name
          (Json.obj ([("type", Json.str "object"), ("oneOf", Json.arr options)]
            ++ (if oneof.comments ≠ "" then
                  [("description", Json.str oneof.comments)] else []))))

/-- `MCPToolBuilder.extractMessageSchemaInternal` (builder.go lines
162-260): emit a `$ref` if the message is on the current recursion path,
otherwise enter the message, process its fields (skipping any whose
extraction errors) and its oneofs, and assemble the object schema with
`required` listing the fields that neither have the `optional` keyword nor
presence semantics.  Fuel is consumed exactly on message entry and ties the
continuation handed to the helpers back to this function. -/
def extractMessageSchemaInternal (env : DescEnv) (fuel : Nat)
    (visited : List String) (fullName : String) : SchemaRes :=
  match fuel with
  | 0 => .error ()
  | fuel + 1 =>
    if fullName ∈ visited then
      .ok (some (refSchema fullName))
    else
      match assocFind env fullName with
      | none => .ok none
      | some msgDesc =>
        match processFields (extractMessageSchemaInternal env fuel)
            (fullName :: visited) msgDesc.fields [] [] with
        | .error () => .error ()
        | .ok (props, required) =>
          match processOneofs (extractMessageSchemaInternal env fuel)
              (fullName :: visited) msgDesc.oneofs props with
          | .error () => .error ()
          | .ok props =>
            .ok (some (Json.obj
              ([("type", Json.str "object"), ("properties", Json.obj props)]
                ++ (if msgDesc.comments ≠ "" then
                      [("description", Json.str msgDesc.comments)] else [])
                ++ (if required.isEmpty then []
                    else [("required", Json.arr (required.map Json.str))]))))

/-- `MCPToolBuilder.ExtractMessageSchema` (builder.go lines 156-159): the
public entry point, starting with an empty visited set.  The fuel budget
`env.length + 1` is shown sufficient by `extractMessageSchemaInternal_total`
below. -/
def ExtractMessageSchema (env : DescEnv) (fullName : String) : SchemaRes :=
  extractMessageSchemaInternal env (env.length + 1) [] fullName

/-- The number of registry entries whose message is not yet on the recursion
path — the quantity each message entry strictly decreases. -/
def unvisitedCount (env : DescEnv) (visited : List String) : Nat :=
  match env with
  | [] => 0
  | e :: rest => (if e.1 ∈ visited then 0 else 1) + unvisitedCount rest visited

theorem unvisitedCount_cons_le (env : DescEnv) (x : String)
    (visited : List String) :
    unvisitedCount env (x :: visited) ≤ unvisitedCount env visited := by
  induction env with
  | nil => simp [unvisitedCount]
  | cons e rest ih =>
    unfold unvisitedCount
    by_cases h1 : e.1 ∈ visited
    · have h2 : e.1 ∈ x :: visited := List.mem_cons_of_mem x h1
      simp only [h1, h2, if_true]
      omega
    · by_cases h2 : e.1 ∈ x :: visited
      · simp only [h1, h2, if_true, if_false]
        omega
      · simp only [h1, h2, if_false]
        omega

theorem unvisitedCount_cons_lt (env : DescEnv) (visited : List String)
    (name : String) (hfind : (assocFind env name).isSome = true)
    (hnv : name ∉ visited) :
    unvisitedCount env (name :: visited) < unvisitedCount env visited := by
  induction env with
  | nil => simp [assocFind] at hfind
  | cons e rest ih =>
    unfold unvisitedCount
    by_cases he : name = e.1
    · have h1 : e.1 ∉ visited := he ▸ hnv
      have h2 : e.1 ∈ name :: visited := by
        rw [← he]; exact List.mem_cons_self name visited
      simp only [h1, h2, if_true, if_false]
      have := unvisitedCount_cons_le rest name visited
      omega
    · have hfind' : (assocFind rest name).isSome = true := by
        unfold assocFind at hfind
        simp only [he, if_false] at hfind
        exact hfind
      have hrec := ih hfind'
      by_cases h1 : e.1 ∈ visited
      · have h2 : e.1 ∈ name :: visited := List.mem_cons_of_mem name h1
        simp only [h1, h2, if_true]
        omega
      · have h2 : e.1 ∉ name :: visited := by
          intro hc
          rcases List.mem_cons.mp hc with hc | hc
          · exact he (hc.symm)
          · exact h1 hc
        simp only [h1, h2, if_false]
        omega

theorem unvisitedCount_le_length (env : DescEnv) (visited : List String) :
    unvisitedCount env visited ≤ env.length := by
  induction env with
  | nil => simp [unvisitedCount]
  | cons e rest ih =>
    unfold unvisitedCount
    by_cases h : e.1 ∈ visited <;> simp only [h, if_true, if_false,
      List.length_cons] <;> omega

theorem extractFieldTypeSchemaInternal_total
    (recurseMsg : List String → String → SchemaRes) (visited : List String)
    (kind : FieldKind) (hrec : ∀ n, recurseMsg visited n ≠ .error ()) :
    extractFieldTypeSchemaInternal recurseMsg visited kind ≠ .error () := by
  intro heq
  unfold extractFieldTypeSchemaInternal at heq
  split at heq <;>
    first
      | simp at heq
      | (split at heq <;> first | simp at heq | exact hrec _ heq)

theorem extractFieldSchemaInternal_total
    (recurseMsg : List String → String → SchemaRes) (visited : List String)
    (field : FieldDesc) (hrec : ∀ n, recurseMsg visited n ≠ .error ()) :
    extractFieldSchemaInternal recurseMsg visited field ≠ .error () := by
  intro heq
  unfold extractFieldSchemaInternal at heq
  by_cases hL : field.isList
  · simp only [hL, if_true] at heq
    split at heq
    next h1 =>
      exact extractFieldTypeSchemaInternal_total recurseMsg visited
        field.kind hrec h1
    next => simp at heq
    next => simp at heq
  · by_cases hM : field.isMap
    · simp only [hL, hM, if_true, if_false, Bool.false_eq_true] at heq
      split at heq
      next h1 =>
        exact extractFieldTypeSchemaInternal_total recurseMsg visited
          field.mapValueKind hrec h1
      next => simp at heq
      next => simp at heq
    · simp only [hL, hM, if_false, Bool.false_eq_true] at heq
      exact extractFieldTypeSchemaInternal_total recurseMsg visited
        field.kind hrec heq

theorem processFields_total
    (recurseMsg : List String → String → SchemaRes) (visited : List String)
    (fields : List FieldDesc) (props : List (String × Json))
    (required : List String) (hrec : ∀ n, recurseMsg visited n ≠ .error ()) :
    processFields recurseMsg visited fields props required ≠ .error () := by
  induction fields generalizing props required with
  | nil => intro heq; simp [processFields] at heq
  | cons field rest ih =>
    intro heq
    unfold processFields at heq
    split at heq
    next h1 =>
      exact extractFieldSchemaInternal_total recurseMsg visited field hrec h1
    next => exact ih _ _ heq
    next => exact ih _ _ heq

theorem processOneofFields_total
    (recurseMsg : List String → String → SchemaRes) (visited : List String)
    (ofields : List FieldDesc) (options : List Json)
    (hrec : ∀ n, recurseMsg visited n ≠ .error ()) :
    processOneofFields recurseMsg visited ofields options ≠ .error () := by
  induction ofields generalizing options with
  | nil => intro heq; simp [processOneofFields] at heq
  | cons field rest ih =>
    intro heq
    unfold processOneofFields at heq
    split at heq
    next h1 =>
      exact extractFieldSchemaInternal_total recurseMsg visited field hrec h1
    next => exact ih _ heq
    next => exact ih _ heq

theorem processOneofs_total
    (recurseMsg : List String → String → SchemaRes) (visited : List String)
    (oneofs : List OneofDesc) (props : List (String × Json))
    (hrec : ∀ n, recurseMsg visited n ≠ .error ()) :
    processOneofs recurseMsg visited oneofs props ≠ .error () := by
  induction oneofs generalizing props with
  | nil => intro heq; simp [processOneofs] at heq
  | cons oneof rest ih =>
    intro heq
    unfold processOneofs at heq
    split at heq
    next h1 =>
      exact processOneofFields_total recurseMsg visited oneof.fields [] hrec h1
    next => exact ih _ heq

theorem extractMessageSchemaInternal_total (fuel : Nat) :
    ∀ (env : DescEnv) (visited : List String) (fullName : String),
      unvisitedCount env visited < fuel →
      extractMessageSchemaInternal env fuel visited fullName ≠ .error () := by
  induction fuel with
  | zero =>
    intro env visited fullName h
    omega
  | succ fuel ih =>
    intro env visited fullName h heq
    unfold extractMessageSchemaInternal at heq
    by_cases hv : fullName ∈ visited
    · simp [hv] at heq
    · simp only [hv, if_false] at heq
      split at heq
      next => simp at heq
      next msgDesc hfind =>
        have hlt : unvisitedCount env (fullName :: visited) < fuel := by
          have h1 := unvisitedCount_cons_lt env visited fullName
            (by rw [hfind]; rfl) hv
          omega
        have hrec : ∀ n,
            extractMessageSchemaInternal env fuel (fullName :: visited) n
              ≠ .error () :=
          fun n => ih env (fullName :: visited) n hlt
        split at heq
        next h1 =>
          exact processFields_total _ _ msgDesc.fields [] [] hrec h1
        next props required h1 =>
          split at heq
          next h2 =>
            exact processOneofs_total _ _ msgDesc.oneofs props hrec h2
          next => simp at heq

theorem ExtractMessageSchema_total (env : DescEnv) (fullName : String) :
    ExtractMessageSchema env fullName ≠ .error () := by
  unfold ExtractMessageSchema
  apply extractMessageSchemaInternal_total
  have := unvisitedCount_le_length env []
  omega

/-- A self-recursive message: `pkg.Node` with a string `id` and a repeated
`children` field of its own type (the spec's scenario 4 shape). -/
def envNode : DescEnv :=
  [("pkg.Node",
    { fields := [{ name := "id", kind := FieldKind.stringK },
                 { name := "children", kind := FieldKind.messageK "pkg.Node",
                   isList := true }] })]

/-- Two sibling fields referencing the same message off the recursion path:
`pkg.A` holds `b1` and `b2`, both of type `pkg.B`. -/
def envSib : DescEnv :=
  [("pkg.A",
    { fields := [{ name := "b1", kind := FieldKind.messageK "pkg.B" },
                 { name := "b2", kind := FieldKind.messageK "pkg.B" }] }),
   ("pkg.B",
    { fields := [{ name := "x", kind := FieldKind.stringK }] })]

/-- The fully expanded schema of `pkg.B`. -/
def sibBSchema : Json :=
  Json.obj [("type", Json.str "object"),
            ("properties", Json.obj [("x", Json.obj [("type", Json.str "string")])]),
            ("required", Json.arr [Json.str "x"])]

/-- C7: schema projection terminates on every registry, cyclic ones
included — the fuel-exhaustion marker is unreachable from the public entry
point; a message already on the current recursion path projects to a
`$ref` to `#/definitions/` plus its name instead of recursing, so the
self-recursive `pkg.Node` projects with a `$ref` inside `children.items`;
and because the visited set is path-scoped, the two sibling `pkg.B` fields
of `pkg.A` are each fully expanded, with no `$ref` anywhere. -/
theorem schemaProjection_cycle_safe (env : DescEnv) (visited : List String)
    (fullName : String) (fuel : Nat) :
    (ExtractMessageSchema env fullName ≠ .error ()) ∧
      (fullName ∈ visited → 0 < fuel →
        extractMessageSchemaInternal env fuel visited fullName
          = .ok (some (refSchema fullName))) ∧
      ExtractMessageSchema envNode "pkg.Node"
        = .ok (some (Json.obj
            [("type", Json.str "object"),
             ("properties", Json.obj
               [("id", Json.obj [("type", Json.str "string")]),
                ("children", Json.obj
                  [("type", Json.str "array"),
                   ("items", refSchema "pkg.Node")])]),
             ("required", Json.arr [Json.str "id", Json.str "children"])])) ∧
      ExtractMessageSchema envSib "pkg.A"
        = .ok (some (Json.obj
            [("type", Json.str "object"),
             ("properties", Json.obj [("b1", sibBSchema), ("b2", sibBSchema)]),
             ("required", Json.arr [Json.str "b1", Json.str "b2"])])) := by
  refine ⟨ExtractMessageSchema_total env fullName, ?_, rfl, rfl⟩
  intro hv hf
  cases fuel with
  | zero => omega
  | succ f =>
    unfold extractMessageSchemaInternal
    simp [hv]

/-- Witness for C7: on the self-recursive registry with `pkg.Node` already
on the path, one entry step emits the `$ref`. -/
theorem schemaProjection_cycle_safe_witness :
    extractMessageSchemaInternal envNode 1 ["pkg.Node"] "pkg.Node"
      = .ok (some (refSchema "pkg.Node")) :=
  (schemaProjection_cycle_safe envNode ["pkg.Node"] "pkg.Node" 1).2.1
    (by decide) (by decide)

/-! ## Oneof projection (claim C4) -/

theorem assocFind_insert_self {α : Type} (m : List (String × α)) (k : String)
    (v : α) : assocFind (assocInsert m k v) k = some v := by
  induction m with
  | nil => simp [assocInsert, assocFind]
  | cons e rest ih =>
    unfold assocInsert
    by_cases h : k = e.1
    · simp [h, assocFind]
    · simp only [h, if_false]
      unfold assocFind
      simp [h, ih]

theorem assocFind_insert_ne {α : Type} (m : List (String × α)) (k k' : String)
    (v : α) (h : k ≠ k') : assocFind (assocInsert m k' v) k = assocFind m k := by
  induction m with
  | nil => simp [assocInsert, assocFind, h]
  | cons e rest ih =>
    unfold assocInsert
    by_cases h2 : k' = e.1
    · subst h2
      unfold assocFind
      simp [h]
    · simp only [h2, if_false]
      unfold assocFind
      by_cases h3 : k = e.1
      · simp [h3]
      · simp [h3, ih]

theorem mem_keys_assocInsert {α : Type} (m : List (String × α)) (k x : String)
    (v : α) (hx : x ∈ (assocInsert m k v).map Prod.fst) :
    x = k ∨ x ∈ m.map Prod.fst := by
  induction m with
  | nil => simp [assocInsert] at hx; exact Or.inl hx
  | cons e rest ih =>
    unfold assocInsert at hx
    by_cases h : k = e.1
    · simp only [h, if_true, List.map_cons, List.mem_cons] at hx
      rcases hx with hx | hx
      · exact Or.inl (hx.trans h.symm)
      · exact Or.inr (by
          simp only [List.map_cons, List.mem_cons]
          exact Or.inr hx)
    · simp only [h, if_false, List.map_cons, List.mem_cons] at hx
      rcases hx with hx | hx
      · exact Or.inr (by
          simp only [List.map_cons, List.mem_cons]
          exact Or.inl hx)
      · rcases ih hx with h1 | h1
        · exact Or.inl h1
        · exact Or.inr (by
            simp only [List.map_cons, List.mem_cons]
            exact Or.inr h1)

theorem assocInsert_keys_nodup {α : Type} (m : List (String × α)) (k : String)
    (v : α) (h : (m.map Prod.fst).Nodup) :
    ((assocInsert m k v).map Prod.fst).Nodup := by
  induction m with
  | nil => simp [assocInsert]
  | cons e rest ih =>
    unfold assocInsert
    by_cases h2 : k = e.1
    · simp only [h2, if_true, List.map_cons, List.nodup_cons] at h ⊢
      exact ⟨h2 ▸ h.1, h.2⟩
    · simp only [h2, if_false, List.map_cons, List.nodup_cons] at h ⊢
      refine ⟨?_, ih h.2⟩
      intro hc
      rcases mem_keys_assocInsert rest k e.1 v hc with h3 | h3
      · exact h2 h3.symm
      · exact h.1 h3

theorem assocFind_foldl_not_mem {α : Type} (keyf : α → String)
    (valf : α → Json) (l : List α) (ps : List (String × Json)) (k : String)
    (hk : k ∉ l.map keyf) :
    assocFind (l.foldl (fun ps a => assocInsert ps (keyf a) (valf a)) ps) k
      = assocFind ps k := by
  induction l generalizing ps with
  | nil => rfl
  | cons a rest ih =>
    simp only [List.map_cons, List.mem_cons, not_or] at hk
    simp only [List.foldl_cons]
    rw [ih _ hk.2, assocFind_insert_ne _ _ _ _ hk.1]

theorem assocFind_foldl_mem {α : Type} (keyf : α → String) (valf : α → Json)
    (l : List α) (ps : List (String × Json)) (a : α)
    (hnd : (l.map keyf).Nodup) (ha : a ∈ l) :
    assocFind (l.foldl (fun ps a => assocInsert ps (keyf a) (valf a)) ps)
      (keyf a) = some (valf a) := by
  induction l generalizing ps with
  | nil => cases ha
  | cons b rest ih =>
    simp only [List.map_cons, List.nodup_cons] at hnd
    simp only [List.foldl_cons]
    rcases List.mem_cons.mp ha with h | h
    · subst h
      rw [assocFind_foldl_not_mem keyf valf rest _ _ hnd.1,
        assocFind_insert_self]
    · exact ih _ hnd.2 h

theorem assocFind_foldl_keys_nodup {α : Type} (keyf : α → String)
    (valf : α → Json) (l : List α) (ps : List (String × Json))
    (h : (ps.map Prod.fst).Nodup) :
    (((l.foldl (fun ps a => assocInsert ps (keyf a) (valf a)) ps)).map
      Prod.fst).Nodup := by
  induction l generalizing ps with
  | nil => exact h
  | cons b rest ih =>
    simp only [List.foldl_cons]
    exact ih _ (assocInsert_keys_nodup _ _ _ h)

/-- Closed form of the field loop when every field extracts successfully:
the properties are the in-order inserts of each field's schema, and
`required` collects exactly the fields with neither the `optional` keyword
nor presence tracking. -/
theorem processFields_eq (recurseMsg : List String → String → SchemaRes)
    (visited : List String) (sch : FieldDesc → Json) (fields : List FieldDesc)
    (props : List (String × Json)) (required : List String)
    (h : ∀ fld ∈ fields,
      extractFieldSchemaInternal recurseMsg visited fld = .ok (some (sch fld))) :
    processFields recurseMsg visited fields props required
      = .ok (fields.foldl (fun ps fld => assocInsert ps fld.name (sch fld)) props,
             required ++ (fields.filter
               (fun fld => !(fld.hasOptionalKeyword || fld.hasPresence))).map
                 FieldDesc.name) := by
  induction fields generalizing props required with
  | nil => simp [processFields]
  | cons field rest ih =>
    have hrest : ∀ fld ∈ rest,
        extractFieldSchemaInternal recurseMsg visited fld
          = .ok (some (sch fld)) :=
      fun fld hf => h fld (List.mem_cons_of_mem field hf)
    unfold processFields
    rw [h field (List.mem_cons_self field rest)]
    by_cases hopt : (field.hasOptionalKeyword || field.hasPresence) = true
    · simp only [ih _ _ hrest, List.foldl_cons, List.filter_cons, hopt]
      simp
    · have hopt2 : (field.hasOptionalKeyword || field.hasPresence) = false := by
        simpa using hopt
      simp only [ih _ _ hrest, List.foldl_cons, List.filter_cons, hopt2]
      simp

/-- Closed form of the oneof member loop when every member extracts
successfully: one option per member, in order, each requiring its single
member. -/
theorem processOneofFields_eq (recurseMsg : List String → String → SchemaRes)
    (visited : List String) (sch : FieldDesc → Json)
    (ofields : List FieldDesc) (options : List Json)
    (h : ∀ fld ∈ ofields,
      extractFieldSchemaInternal recurseMsg visited fld = .ok (some (sch fld))) :
    processOneofFields recurseMsg visited ofields options
      = .ok (options
          ++ ofields.map (fun fld => oneofOption fld.name (sch fld))) := by
  induction ofields generalizing options with
  | nil => simp [processOneofFields]
  | cons field rest ih =>
    have hrest : ∀ fld ∈ rest,
        extractFieldSchemaInternal recurseMsg visited fld
          = .ok (some (sch fld)) :=
      fun fld hf => h fld (List.mem_cons_of_mem field hf)
    unfold processOneofFields
    rw [h field (List.mem_cons_self field rest)]
    simp only [ih _ hrest]
    simp

/-- The full schema the code produces for a oneof whose members all project
successfully. -/
def oneofSchemaOf (sch : FieldDesc → Json) (oneof : OneofDesc) : Json :=
  Json.obj ([("type", Json.str "object"),
             ("oneOf", Json.arr (oneof.fields.map
               (fun fld => oneofOption fld.name (sch fld))))]
            ++ (if oneof.comments ≠ "" then
                  [("description", Json.str oneof.comments)] else []))

/-- Closed form of the oneof loop when every member of every oneof extracts
successfully. -/
theorem processOneofs_eq (recurseMsg : List String → String → SchemaRes)
    (visited : List String) (sch : FieldDesc → Json)
    (oneofs : List OneofDesc) (props : List (String × Json))
    (h : ∀ o ∈ oneofs, ∀ fld ∈ o.fields,
      extractFieldSchemaInternal recurseMsg visited fld = .ok (some (sch fld))) :
    processOneofs recurseMsg visited oneofs props
      = .ok (oneofs.foldl
          (fun ps o => assocInsert ps o.name (oneofSchemaOf sch o)) props) := by
  induction oneofs generalizing props with
  | nil => simp [processOneofs]
  | cons oneof rest ih =>
    have hrest : ∀ o ∈ rest, ∀ fld ∈ o.fields,
        extractFieldSchemaInternal recurseMsg visited fld
          = .ok (some (sch fld)) :=
      fun o ho => h o (List.mem_cons_of_mem oneof ho)
    unfold processOneofs
    rw [processOneofFields_eq recurseMsg visited sch oneof.fields []
      (h oneof (List.mem_cons_self oneof rest))]
    simp only [List.nil_append, ih _ hrest]
    simp [oneofSchemaOf]

/-- C4 (amended): for a message whose field and oneof names are distinct,
whose oneof members carry presence (as protoreflect guarantees) and are also
listed in the message's field list (as protoreflect does), and whose fields
all project successfully, the schema has exactly one property named after
each oneof — an object whose `oneOf` array has one entry per member, each
requiring its single member — but each oneof member also appears as a
top-level property of the message schema, merely omitted from `required`. -/
theorem oneofSchema_amended (env : DescEnv) (visited : List String)
    (fullName : String) (md : MsgDesc) (fuel : Nat) (sch : FieldDesc → Json)
    (hfind : assocFind env fullName = some md)
    (hnv : fullName ∉ visited)
    (hf : ∀ fld ∈ md.fields,
      extractFieldSchemaInternal (extractMessageSchemaInternal env fuel)
        (fullName :: visited) fld = .ok (some (sch fld)))
    (ho : ∀ o ∈ md.oneofs, ∀ fld ∈ o.fields,
      extractFieldSchemaInternal (extractMessageSchemaInternal env fuel)
        (fullName :: visited) fld = .ok (some (sch fld)))
    (hnd : (md.fields.map FieldDesc.name
              ++ md.oneofs.map OneofDesc.name).Nodup)
    (hsub : ∀ o ∈ md.oneofs, ∀ fld ∈ o.fields, fld ∈ md.fields)
    (hpres : ∀ o ∈ md.oneofs, ∀ fld ∈ o.fields, fld.hasPresence = true) :
    ∃ (props : List (String × Json)) (required : List String),
      extractMessageSchemaInternal env (fuel + 1) visited fullName
        = .ok (some (Json.obj
            ([("type", Json.str "object"), ("properties", Json.obj props)]
              ++ (if md.comments ≠ "" then
                    [("description", Json.str md.comments)] else [])
              ++ (if required.isEmpty then []
                  else [("required",
                         Json.arr (required.map Json.str))])))) ∧
        (props.map Prod.fst).Nodup ∧
        (∀ o ∈ md.oneofs,
          assocFind props o.name = some (oneofSchemaOf sch o)) ∧
        (∀ o ∈ md.oneofs, ∀ fld ∈ o.fields,
          assocFind props fld.name = some (sch fld)) ∧
        (∀ o ∈ md.oneofs, ∀ fld ∈ o.fields, fld.name ∉ required) := by
  have hndF : (md.fields.map FieldDesc.name).Nodup := hnd.of_append_left
  have hndO : (md.oneofs.map OneofDesc.name).Nodup := hnd.of_append_right
  have hdisj := List.disjoint_of_nodup_append hnd
  refine ⟨md.oneofs.foldl
      (fun ps o => assocInsert ps o.name (oneofSchemaOf sch o))
      (md.fields.foldl (fun ps fld => assocInsert ps fld.name (sch fld)) []),
    (md.fields.filter
      (fun fld => !(fld.hasOptionalKeyword || fld.hasPresence))).map
        FieldDesc.name,
    ?_, ?_, ?_, ?_, ?_⟩
  · unfold extractMessageSchemaInternal
    rw [if_neg hnv]
    simp only [hfind]
    rw [processFields_eq (extractMessageSchemaInternal env fuel)
      (fullName :: visited) sch md.fields [] [] hf]
    simp only [List.nil_append]
    rw [processOneofs_eq (extractMessageSchemaInternal env fuel)
      (fullName :: visited) sch md.oneofs _ ho]
  · exact assocFind_foldl_keys_nodup OneofDesc.name (oneofSchemaOf sch)
      md.oneofs _
      (assocFind_foldl_keys_nodup FieldDesc.name sch md.fields [] (by simp))
  · intro o hmem
    exact assocFind_foldl_mem OneofDesc.name (oneofSchemaOf sch)
      md.oneofs _ o hndO hmem
  · intro o hmem fld hfld
    have hname : fld.name ∉ md.oneofs.map OneofDesc.name :=
      fun hc => hdisj (List.mem_map_of_mem FieldDesc.name
        (hsub o hmem fld hfld)) hc
    rw [assocFind_foldl_not_mem OneofDesc.name (oneofSchemaOf sch)
      md.oneofs _ fld.name hname]
    exact assocFind_foldl_mem FieldDesc.name sch md.fields [] fld hndF
      (hsub o hmem fld hfld)
  · intro o hmem fld hfld hreq
    rcases List.mem_map.mp hreq with ⟨fld2, hfld2, hname⟩
    have hfld2m := List.mem_of_mem_filter hfld2
    have : fld2 = fld :=
      List.inj_on_of_nodup_map hndF hfld2m (hsub o hmem fld hfld) hname
    subst this
    have hp := List.of_mem_filter hfld2
    rw [hpres o hmem fld2 hfld] at hp
    simp at hp

/-- A message with a oneof, shaped like the repo test fixture: `pkg.Doc` has
a plain `document_id` field and a oneof `metadata` whose single member
`simple_summary` is, as protoreflect lists it, also present in the field
list (with presence tracking). -/
def docMsg : MsgDesc :=
  { fields := [{ name := "document_id", kind := FieldKind.stringK },
               { name := "simple_summary", kind := FieldKind.stringK,
                 hasPresence := true }],
    oneofs := [{ name := "metadata",
                 fields := [{ name := "simple_summary",
                              kind := FieldKind.stringK,
                              hasPresence := true }] }] }

/-- Registry holding only `pkg.Doc`. -/
def envDoc : DescEnv := [("pkg.Doc", docMsg)]

/-- The schema every field of `pkg.Doc` projects to. -/
def docSch : FieldDesc → Json := fun _ => Json.obj [("type", Json.str "string")]

/-- The names of the top-level `properties` keys of a projected schema. -/
def topLevelPropNames (r : SchemaRes) : List String :=
  match r with
  | .ok (some (Json.obj kvs)) =>
    match assocFind kvs "properties" with
    | some (Json.obj props) => props.map Prod.fst
    | _ => []
  | _ => []

/-- C4 (counterexample): projecting `pkg.Doc` puts the oneof member
`simple_summary` among the top-level properties of the message schema,
alongside the `metadata` oneof property — the claim that member fields do
not also appear as top-level properties is false on this input. -/
theorem oneof_member_toplevel_counterexample :
    "simple_summary" ∈ topLevelPropNames (ExtractMessageSchema envDoc "pkg.Doc")
      ∧ "metadata" ∈ topLevelPropNames (ExtractMessageSchema envDoc "pkg.Doc") := by
  decide

/-- Witness for the amended C4 theorem: all its hypotheses hold at the
concrete registry `envDoc`, and the projection it describes succeeds. -/
theorem oneofSchema_amended_witness :
    extractMessageSchemaInternal envDoc (1 + 1) [] "pkg.Doc" ≠ .error () := by
  obtain ⟨props, required, h1, -, -, -, -⟩ :=
    oneofSchema_amended envDoc [] "pkg.Doc" docMsg 1 docSch rfl (by simp)
      (by intro fld hfld
          fin_cases hfld <;> rfl)
      (by intro o hmem fld hfld
          fin_cases hmem
          fin_cases hfld
          rfl)
      (by decide)
      (by intro o hmem fld hfld
          fin_cases hmem
          fin_cases hfld
          exact List.mem_cons_of_mem _ (List.mem_cons_self _ _))
      (by intro o hmem fld hfld
          fin_cases hmem
          fin_cases hfld
          rfl)
  rw [h1]
  intro h
  cases h

/-! ## Tool building (pkg/tools/builder.go) and tool invocation
(grpc/discovery.go) -/

/-- `mcp.Tool`, restricted to the fields `BuildTool` fills. -/
structure Tool where
  name : String
  description : String
  inputSchema : Json
  outputSchema : Json

/-- `MCPToolBuilder.generateDescription` (builder.go lines 92-100): the
method description when present, else the generic sentence. -/
def generateDescription (m : MethodInfo) : String :=
  if m.description ≠ "" then m.description
  else "Calls the " ++ m.name ++ " method of the " ++ m.serviceName ++ " service"

/-- `MCPToolBuilder.validateTool` (builder.go lines 103-122): non-empty
name, non-empty description, and the name contains an underscore.  (The Go
nil-check on the input schema cannot fire in this model, where a schema is
always a `Json` value.) -/
def validateTool (t : Tool) : Bool :=
  !(t.name = "") && !(t.description = "") && t.name.data.contains '_'

/-- Collapses a schema extraction result to the Go view: a schema, or a Go
error (`none`).  Fuel exhaustion cannot occur (`ExtractMessageSchema_total`)
and is mapped to `none` as well. -/
def schemaResult (r : SchemaRes) : Option Json :=
  match r with
  | .ok (some j) => some j
  | _ => none

/-- `MCPToolBuilder.BuildTool` (builder.go lines 36-89): regenerate the tool
name, generate the description, extract both schemas (any failure is the
Go error return), validate, and emit the tool. -/
def buildTool (env : DescEnv) (m : MethodInfo) : Option Tool :=
  match schemaResult (ExtractMessageSchema env m.inputDescriptor) with
  | none => none
  | some inputSchema =>
    match schemaResult (ExtractMessageSchema env m.outputDescriptor) with
    | none => none
    | some outputSchema =>
      let tool : Tool :=
        { name := m.generateToolName, description := generateDescription m,
          inputSchema := inputSchema, outputSchema := outputSchema }
      if validateTool tool then some tool else none

/-- `MCPToolBuilder.BuildTools` (builder.go lines 125-151): skip every
streaming method, skip methods whose tool build fails, and collect the
rest in order. -/
def buildTools (env : DescEnv) (methods : List MethodInfo) : List Tool :=
  methods.foldl (fun acc m =>
    if m.isClientStreaming || m.isServerStreaming then acc
    else
      match buildTool env m with
      | none => acc
      | some tool => acc ++ [tool]) []

/-- The decision taken by `serviceDiscoverer.InvokeMethodByTool`
(grpc/discovery.go lines 346-360) before any upstream work: unknown tool,
streaming refusal, or invocation of the named method. -/
inductive InvokeByToolStep where
  | notFound : InvokeByToolStep
  | streamingRefused : InvokeByToolStep
  | invoked (m : MethodInfo) : InvokeByToolStep
deriving Repr, DecidableEq

/-- `serviceDiscoverer.InvokeMethodByTool` (grpc/discovery.go lines
346-360), up to the point the reflection client is called: look the tool up
in the published map, refuse streaming methods, otherwise invoke. -/
def invokeMethodByTool (tools : List (String × MethodInfo))
    (toolName : String) : InvokeByToolStep :=
  match assocFind tools toolName with
  | none => .notFound
  | some m =>
    if m.isClientStreaming || m.isServerStreaming then .streamingRefused
    else .invoked m

theorem buildTools_mem (env : DescEnv) (methods : List MethodInfo)
    (acc : List Tool) (t : Tool)
    (ht : t ∈ methods.foldl (fun acc m =>
      if m.isClientStreaming || m.isServerStreaming then acc
      else match buildTool env m with
        | none => acc
        | some tool => acc ++ [tool]) acc) :
    t ∈ acc ∨ ∃ m, m ∈ methods ∧ m.isClientStreaming = false ∧
      m.isServerStreaming = false ∧ buildTool env m = some t := by
  induction methods generalizing acc with
  | nil => exact Or.inl ht
  | cons m rest ih =>
    simp only [List.foldl_cons] at ht
    rcases ih _ ht with hin | ⟨m2, h2, h3, h4, h5⟩
    · by_cases hs : (m.isClientStreaming || m.isServerStreaming) = true
      · rw [if_pos hs] at hin
        exact Or.inl hin
      · rw [if_neg hs] at hin
        simp only [Bool.or_eq_true, not_or, Bool.not_eq_true] at hs
        cases hb : buildTool env m with
        | none =>
          rw [hb] at hin
          exact Or.inl hin
        | some tool =>
          rw [hb] at hin
          rcases List.mem_append.mp hin with hin | hin
          · exact Or.inl hin
          · have heq : t = tool := by simpa using hin
            subst heq
            exact Or.inr ⟨m, List.mem_cons_self m rest, hs.1, hs.2, hb⟩
    · exact Or.inr ⟨m2, List.mem_cons_of_mem m h2, h3, h4, h5⟩

/-- C2 (amended): the internally stored map may hold streaming methods, but
every tool the builder publishes through `tools/list` comes from a method
with both streaming flags false — streaming methods never yield a tool; and
`tools/call` on a tool whose stored method is streaming is refused before
any upstream work. -/
theorem exposedTools_no_streaming (env : DescEnv)
    (methods : List MethodInfo) :
    (∀ t ∈ buildTools env methods, ∃ m, m ∈ methods ∧
        m.isClientStreaming = false ∧ m.isServerStreaming = false ∧
        buildTool env m = some t) ∧
      (∀ (tools : List (String × MethodInfo)) (toolName : String)
          (m : MethodInfo), assocFind tools toolName = some m →
        (m.isClientStreaming || m.isServerStreaming) = true →
        invokeMethodByTool tools toolName = .streamingRefused) := by
  constructor
  · intro t ht
    unfold buildTools at ht
    rcases buildTools_mem env methods [] t ht with hin | h
    · cases hin
    · exact h
  · intro tools toolName m hfind hs
    unfold invokeMethodByTool
    rw [hfind]
    simp [hs]

/-- Witness for C2 (amended): the published map entry for the concrete
streaming method is refused by `tools/call`. -/
theorem exposedTools_no_streaming_witness :
    invokeMethodByTool (buildToolsMap [streamMethod]) "s_svc_watch"
      = .streamingRefused :=
  (exposedTools_no_streaming [] []).2 (buildToolsMap [streamMethod])
    "s_svc_watch" streamMethod rfl rfl

/-! ## Dynamic invocation engine (grpc/reflection.go) -/

/-- A `dynamicpb` message bound to a descriptor: fresh (`payload = none`,
as `dynamicpb.NewMessage` returns) or filled by `protojson.Unmarshal`. -/
structure DynamicMessage where
  descriptor : String
  payload : Option Json
deriving Repr

/-- The observable outcome of `reflectionClient.InvokeMethod`: the unary
call that was issued — wire path and input message — if one was, and the
returned value or error. -/
structure InvokeOutcome where
  upstreamCall : Option (String × DynamicMessage)
  result : Except String String
deriving Repr

/-- `method.FullName[:strings.LastIndex(method.FullName, ".")]` — the
full name up to (excluding) its last dot.  (On a dot-free name Go would
panic on the negative slice bound; this model returns the empty string,
a case no descriptor-derived full name produces.) -/
def beforeLastDot (s : String) : String :=
  ⟨((s.data.reverse.dropWhile (fun c => c ≠ '.')).drop 1).reverse⟩

/-- `reflectionClient.InvokeMethod` (grpc/reflection.go lines 333-392),
abstracted over `protojson.Unmarshal` (`parseJSON`) and the combined
`conn.Invoke` + `protojson.Marshal` upstream step (`upstream`): construct a
fresh dynamic message bound to the input descriptor; parse the input JSON
into it unless the JSON is empty or exactly `"\x7b\x7d"`; on a parse error
return the wrapped error without calling upstream; otherwise issue the
unary call on the wire path derived from the method's full name.  (Metadata
attachment of the already-filtered headers is outside this slice.) -/
def invokeMethod (parseJSON : String → Except String Json)
    (upstream : String → DynamicMessage → Except String String)
    (m : MethodInfo) (inputJSON : String) : InvokeOutcome :=
  let inputMsg : DynamicMessage :=
    { descriptor := m.inputDescriptor, payload := none }
  let call := fun (msg : DynamicMessage) =>
    let grpcMethodName := "/" ++ beforeLastDot m.fullName ++ "/" ++ m.name
    match upstream grpcMethodName msg with
    | .error e =>
      { upstreamCall := some (grpcMethodName, msg),
        result := .error ("gRPC call failed: " ++ e) : InvokeOutcome }
    | .ok outputJSON =>
      { upstreamCall := some (grpcMethodName, msg),
        result := .ok outputJSON }
  if inputJSON ≠ "" ∧ inputJSON ≠ "\x7b\x7d" then
    match parseJSON inputJSON with
    | .error e =>
      { upstreamCall := none,
        result := .error ("failed to parse input JSON: " ++ e) }
    | .ok j => call { inputMsg with payload := some j }
  else
    call inputMsg

/-- C9: when the arguments JSON is absent (empty) or exactly `"\x7b\x7d"`,
`InvokeMethod` never consults the JSON parser — its outcome is identical
under any two parsers — and issues the unary call with a freshly
constructed empty dynamic message bound to the method's input descriptor;
for any other input it parses, returns the wrapped parse error without any
upstream call when parsing fails, and calls upstream with the parsed
payload when it succeeds. -/
theorem invokeMethod_parse_policy (parse1 parse2 : String → Except String Json)
    (upstream : String → DynamicMessage → Except String String)
    (m : MethodInfo) (s : String) :
    ((s = "" ∨ s = "\x7b\x7d") →
       invokeMethod parse1 upstream m s = invokeMethod parse2 upstream m s ∧
       (invokeMethod parse1 upstream m s).upstreamCall
         = some ("/" ++ beforeLastDot m.fullName ++ "/" ++ m.name,
                 { descriptor := m.inputDescriptor, payload := none })) ∧
      (∀ e, s ≠ "" → s ≠ "\x7b\x7d" → parse1 s = .error e →
        (invokeMethod parse1 upstream m s).upstreamCall = none ∧
        (invokeMethod parse1 upstream m s).result
          = .error ("failed to parse input JSON: " ++ e)) ∧
      (∀ j, s ≠ "" → s ≠ "\x7b\x7d" → parse1 s = .ok j →
        (invokeMethod parse1 upstream m s).upstreamCall
          = some ("/" ++ beforeLastDot m.fullName ++ "/" ++ m.name,
                  { descriptor := m.inputDescriptor, payload := some j })) := by
  refine ⟨?_, ?_, ?_⟩
  · intro hs
    have hcond : ¬(s ≠ "" ∧ s ≠ "\x7b\x7d") := by
      rcases hs with hs | hs <;> simp [hs]
    unfold invokeMethod
    simp only [if_neg hcond]
    constructor
    · trivial
    · cases hu : upstream ("/" ++ beforeLastDot m.fullName ++ "/" ++ m.name)
        { descriptor := m.inputDescriptor, payload := none } <;> simp [hu]
  · intro e h1 h2 hp
    unfold invokeMethod
    rw [if_pos ⟨h1, h2⟩, hp]
    exact ⟨rfl, rfl⟩
  · intro j h1 h2 hp
    unfold invokeMethod
    rw [if_pos ⟨h1, h2⟩, hp]
    cases hu : upstream ("/" ++ beforeLastDot m.fullName ++ "/" ++ m.name)
      { descriptor := m.inputDescriptor, payload := some j } <;> simp [hu]

/-- Witness for C9: a failing parser on a non-empty, non-`\x7b\x7d` input
yields the wrapped parse error with no upstream call. -/
theorem invokeMethod_parse_policy_witness :
    (invokeMethod (fun _ => .error "boom") (fun _ _ => .ok "out")
        sayHelloInfo "broken").upstreamCall = none ∧
      (invokeMethod (fun _ => .error "boom") (fun _ _ => .ok "out")
          sayHelloInfo "broken").result
        = .error ("failed to parse input JSON: " ++ "boom") :=
  (invokeMethod_parse_policy (fun _ => .error "boom") (fun _ => .ok Json.null)
    (fun _ _ => .ok "out") sayHelloInfo "broken").2.1 "boom"
    (by decide) (by decide) rfl

/-! ## Session rate limiting and the tools/call dispatcher
(pkg/session/manager.go, pkg/server/handler.go) -/

/-- `session.Context` (pkg/session/manager.go), with `time.Time` values as
integer nanoseconds. -/
structure SessionContext where
  id : String
  headers : List (String × String)
  callCount : Int := 0
  requestCount : Int := 0
  windowStart : Int := 0
  isBlocked : Bool := false
deriving Repr, DecidableEq

/-- `Manager.CheckRateLimit` (pkg/session/manager.go lines 535-565) for an
existing session: reset the window when more than `windowSize` has elapsed,
refuse when the request count has reached `requestsPerMinute`, otherwise
count the request and allow it.  Returns the decision and the updated
session. -/
def checkRateLimit (requestsPerMinute : Int) (windowSize : Int) (now : Int)
    (ctx : SessionContext) : Bool × SessionContext :=
  let ctx := if now - ctx.windowStart > windowSize then
    { ctx with requestCount := 0, windowStart := now } else ctx
  if ctx.requestCount ≥ requestsPerMinute then (false, ctx)
  else (true, { ctx with requestCount := ctx.requestCount + 1 })

/-- The `params` of a `tools/call` request as the handler reads them. -/
structure ToolCallParams where
  name : Option String
  arguments : Option Json

/-- `mcp.ToolCallResult`, reduced to its single text block and error flag. -/
structure ToolCallResult where
  text : String
  isError : Bool
deriving Repr, DecidableEq

/-- The observable behaviour of one `handleToolsCall` run: whether the
invocation engine (`serviceDiscoverer.InvokeMethodByTool`) was reached, and
the response — a Go error becomes a JSON-RPC error upstream. -/
structure ToolsCallTrace where
  engineInvoked : Bool
  response : Except String ToolCallResult

/-- `Handler.handleToolsCall` (pkg/server/handler.go lines 215-271),
abstracted over the validator, `json.Marshal` and the invocation engine:
validate the params, marshal the arguments (absent arguments yield the
empty string), filter the session headers, and invoke the engine — a
failed invocation becomes a `ToolCallResult` with `isError`.  No session
counter is consulted anywhere on this path: `Manager.CheckRateLimit` has no
caller here. -/
def handleToolsCall (validate : ToolCallParams → Except String Unit)
    (marshalJSON : Json → String)
    (invokeByTool : List (String × String) → String → String →
      Except String String)
    (headerFilter : HeaderForwardingConfig)
    (params : ToolCallParams) (sessionCtx : SessionContext) : ToolsCallTrace :=
  match validate params with
  | .error e =>
    { engineInvoked := false,
      response := .error ("invalid parameters: " ++ e) }
  | .ok _ =>
    match params.name with
    | none =>
      -- unreachable after validation: in Go the type assertion
      -- `params["name"].(string)` is guaranteed by the validator
      { engineInvoked := false,
        response := .error "invalid parameters: name missing" }
    | some toolName =>
      let argumentsJSON := match params.arguments with
        | some args => marshalJSON args
        | none => ""
      let filteredHeaders := filterHeaders headerFilter sessionCtx.headers
      match invokeByTool filteredHeaders toolName argumentsJSON with
      | .error e =>
        { engineInvoked := true,
          response := .ok { text := "Error invoking method: " ++ e,
                            isError := true } }
      | .ok result =>
        { engineInvoked := true,
          response := .ok { text := result, isError := false } }

/-- C8 (counter-evidence, code bug): the dispatcher invokes the gRPC
invocation engine for every validated `tools/call`, even from a session
whose request count already exceeds the per-minute limit — a state in which
`Manager.CheckRateLimit` would refuse — and its outcome is entirely
independent of the session's rate-limit fields: no rate-limit error is ever
returned by this path. -/
theorem handleToolsCall_ignores_rate_limit
    (validate : ToolCallParams → Except String Unit)
    (marshalJSON : Json → String)
    (invokeByTool : List (String × String) → String → String →
      Except String String)
    (headerFilter : HeaderForwardingConfig) (params : ToolCallParams)
    (sessionCtx : SessionContext) (n : String)
    (requestsPerMinute windowSize now : Int)
    (hv : validate params = .ok ()) (hn : params.name = some n)
    (hexceeded : (checkRateLimit requestsPerMinute windowSize now
      sessionCtx).1 = false) :
    (handleToolsCall validate marshalJSON invokeByTool headerFilter params
        sessionCtx).engineInvoked = true ∧
      ∀ r w : Int,
        handleToolsCall validate marshalJSON invokeByTool headerFilter params
            { sessionCtx with requestCount := r, windowStart := w }
          = handleToolsCall validate marshalJSON invokeByTool headerFilter
              params sessionCtx := by
  constructor
  · unfold handleToolsCall
    rw [hv, hn]
    cases hu : invokeByTool (filterHeaders headerFilter sessionCtx.headers) n
        (match params.arguments with
         | some args => marshalJSON args
         | none => "") <;> simp [hu]
  · intro r w
    rfl

/-- A session that has already used up its 100-per-minute budget. -/
def exhaustedSession : SessionContext :=
  { id := "s1", headers := [], callCount := 100, requestCount := 100,
    windowStart := 0 }

/-- Witness for C8: with the default limit of 100 per minute and the window
still open, `CheckRateLimit` refuses `exhaustedSession`, yet the dispatcher
still reaches the invocation engine on its behalf. -/
theorem handleToolsCall_ignores_rate_limit_witness :
    (handleToolsCall (fun _ => .ok ()) (fun _ => "") (fun _ _ _ => .ok "out")
        samplePolicy { name := some "t", arguments := none }
        exhaustedSession).engineInvoked = true ∧
      (checkRateLimit 100 60000000000 1000 exhaustedSession).1 = false :=
  ⟨(handleToolsCall_ignores_rate_limit (fun _ => .ok ()) (fun _ => "")
      (fun _ _ _ => .ok "out") samplePolicy
      { name := some "t", arguments := none } exhaustedSession "t"
      100 60000000000 1000 rfl rfl (by decide)).1,
   by decide⟩
